import Mathlib

/-!
Verification of the session-scoped agent pool in
`fastapi-strands-agent/app/agent_pool.py`.

The pool keeps a Python `dict` mapping a composite string key
`f"{session_id}:{provider}"` to a pair `(agent, last_access)`.  We embed the
dict as an association list in insertion order, with the exact dict
semantics used by the code:

* lookup returns the first (and, for a dict, only) binding of a key;
* assignment `d[k] = v` updates an existing binding in place (keeping its
  position) and otherwise appends the new binding at the end;
* `del d[k]` removes the binding of `k`.

Timestamps are integers (the code uses `datetime.now()`; each operation here
takes the current time as an explicit parameter).  The agent object is opaque;
we model it by a natural-number identity so that "the identical handle
instance" is expressible.  The factory `_create_agent` performs external I/O
and may raise; it is a parameter of type `Factory` returning `Except`.
-/

/-- Opaque handle identity standing for a `strands.Agent` instance. -/
abbrev Agent := Nat

/-- Errors visible to the pool: the asyncio cancellation signal, and a
factory (`_create_agent`) construction failure. -/
inductive PoolError where
  | cancelled
  | constructionFailed (msg : String)
  deriving DecidableEq, Repr

/-- The injected construction logic (`AgentPool._create_agent`): from the
un-joined key parts to a handle, may fail. -/
abbrev Factory := String → String → Except PoolError Agent

/-! ### Python dict primitives on association lists -/

/-- `d[k]` / `k in d`: first binding of `k`, if any. -/
def dictLookup {α : Type} (d : List (String × α)) (k : String) : Option α :=
  match d with
  | [] => none
  | (k', v) :: rest => if k' = k then some v else dictLookup rest k

/-- `d[k] = v`: replace an existing binding of `k` in place, else append. -/
def dictInsert {α : Type} (d : List (String × α)) (k : String) (v : α) :
    List (String × α) :=
  match d with
  | [] => [(k, v)]
  | (k', v') :: rest =>
      if k' = k then (k, v) :: rest else (k', v') :: dictInsert rest k v

/-- `del d[k]`: drop the (first) binding of `k`. -/
def dictRemove {α : Type} (d : List (String × α)) (k : String) :
    List (String × α) :=
  match d with
  | [] => []
  | (k', v') :: rest =>
      if k' = k then rest else (k', v') :: dictRemove rest k

/-- Keys of the dict, in iteration order. -/
def dictKeys {α : Type} (d : List (String × α)) : List String :=
  d.map Prod.fst

/-! ### The oldest-entry scan of `_evict_oldest`

`min(self._agents.keys(), key=lambda k: self._agents[k][1])` folds over the
keys in iteration order keeping the first key of minimal `last_access`
(Python `min` keeps the earlier element on ties).  In a dict each iterated
key's lookup returns the entry it came from, so the scan compares each
entry's own timestamp. -/

/-- Fold of the eviction scan over the remaining entries, seeded with the
first entry. -/
def oldestEntry (e : String × Agent × Int) (l : List (String × Agent × Int)) :
    String × Agent × Int :=
  l.foldl (fun best x => if x.2.2 < best.2.2 then x else best) e

/-- The key chosen by `_evict_oldest`, if the dict is non-empty. -/
def oldestKey (l : List (String × Agent × Int)) : Option String :=
  match l with
  | [] => none
  | e :: es => some (oldestEntry e es).1

/-! ### The pool itself, translated from `AgentPool`

`session_dir` and `window_size` are only forwarded to `_create_agent`,
which is the injected `Factory` here, so they do not appear in the state.
`ttl` is a duration in the same (opaque) unit as the timestamps. -/

/-- State of `AgentPool`: the `_agents` dict (key ↦ (agent, last_access)),
`_ttl`, `_max_agents`, and whether `_cleanup_task` is set (it is `None`
until `start()` runs). -/
structure AgentPool where
  agents : List (String × Agent × Int)
  ttl : Int
  maxAgents : Int
  cleanupTask : Option Unit
  deriving DecidableEq, Repr

/-- `AgentPool.__init__`: empty dict, no cleanup task yet. -/
def AgentPool.init (ttl maxAgents : Int) : AgentPool :=
  { agents := [], ttl := ttl, maxAgents := maxAgents, cleanupTask := none }

/-- `cache_key = f"{session_id}:{provider}"`. -/
def cacheKey (sessionId provider : String) : String :=
  sessionId ++ ":" ++ provider

/-- `AgentPool.start`: schedule the cleanup task. -/
def AgentPool.start (p : AgentPool) : AgentPool :=
  { p with cleanupTask := some () }

/-- `AgentPool._evict_oldest`: no-op on an empty dict, else delete the key
with the smallest `last_access`. -/
def AgentPool.evictOldest (p : AgentPool) : AgentPool :=
  match oldestKey p.agents with
  | none => p
  | some k => { p with agents := dictRemove p.agents k }

/-- `AgentPool.get`.  Returns the result (`ok (agent, factoryInvoked)` or the
propagated factory error) together with the pool state after the call; the
state survives an exception exactly as the Python object does.  The
`factoryInvoked` flag records whether `_create_agent` ran. -/
def AgentPool.get (p : AgentPool) (factory : Factory) (now : Int)
    (sessionId provider : String) :
    Except PoolError (Agent × Bool) × AgentPool :=
  let key := cacheKey sessionId provider
  match dictLookup p.agents key with
  | some (agent, _) =>
      (Except.ok (agent, false),
        { p with agents := dictInsert p.agents key (agent, now) })
  | none =>
      let p1 := if (p.agents.length : Int) ≥ p.maxAgents then p.evictOldest
                else p
      match factory sessionId provider with
      | Except.error e => (Except.error e, p1)
      | Except.ok agent =>
          (Except.ok (agent, true),
            { p1 with agents := dictInsert p1.agents key (agent, now) })

/-- `AgentPool._cleanup_expired`: collect the keys whose entries are idle
longer than `ttl`, then delete each. -/
def AgentPool.cleanupExpired (p : AgentPool) (now : Int) : AgentPool :=
  let expired :=
    dictKeys (p.agents.filter (fun e => decide (now - e.2.2 > p.ttl)))
  { p with agents := expired.foldl (fun d k => dictRemove d k) p.agents }

/-- `AgentPool.remove`: delete the entry if present, else no-op. -/
def AgentPool.remove (p : AgentPool) (sessionId provider : String) :
    AgentPool :=
  let key := cacheKey sessionId provider
  match dictLookup p.agents key with
  | some _ => { p with agents := dictRemove p.agents key }
  | none => p

/-- `AgentPool.stop`: cancel the cleanup task if it was ever created and
await it; awaiting the just-cancelled infinite `_cleanup_loop` delivers the
cancellation signal, which the `except asyncio.CancelledError: pass` clause
swallows.  Then clear the dict. -/
def AgentPool.stop (p : AgentPool) : Except PoolError AgentPool :=
  match p.cleanupTask with
  | some _ =>
      match (Except.error PoolError.cancelled : Except PoolError Unit) with
      | Except.ok _ => Except.ok { p with agents := [] }
      | Except.error PoolError.cancelled => Except.ok { p with agents := [] }
      | Except.error e => Except.error e
  | none => Except.ok { p with agents := [] }

/-- `AgentPool.active_sessions` (the spec's `active_count`). -/
def AgentPool.activeSessions (p : AgentPool) : Nat :=
  p.agents.length

/-- `key.split(":")[0]`: the text before the first colon. -/
def splitFirst (s : String) : String :=
  String.mk (s.toList.takeWhile (fun c => c ≠ ':'))

/-- `AgentPool.session_ids` (the spec's `active_keys`): first key segment of
every entry, in iteration order, without deduplication. -/
def AgentPool.sessionIds (p : AgentPool) : List String :=
  p.agents.map (fun e => splitFirst e.1)

/-- Key uniqueness: the defining invariant of the backing Python dict.  All
states reachable from `__init__` satisfy it. -/
def PoolWF (p : AgentPool) : Prop :=
  (dictKeys p.agents).Nodup

instance (p : AgentPool) : Decidable (PoolWF p) :=
  inferInstanceAs (Decidable ((dictKeys p.agents).Nodup))

/-! ### Operation sequences, for whole-history invariants -/

/-- One pool operation.  A `getOp` carries the outcome the factory would
produce for this call (the factory is external and may answer anything). -/
inductive PoolOp where
  | getOp (s pr : String) (factoryResult : Except PoolError Agent) (now : Int)
  | removeOp (s pr : String)
  | cleanupOp (now : Int)
  | startOp
  | stopOp

/-- Apply one operation to the pool state (a failing `get` still mutates the
object, exactly as in Python; a failing `stop` would keep the state). -/
def applyOp (p : AgentPool) (op : PoolOp) : AgentPool :=
  match op with
  | .getOp s pr fr now => (p.get (fun _ _ => fr) now s pr).2
  | .removeOp s pr => p.remove s pr
  | .cleanupOp now => p.cleanupExpired now
  | .startOp => p.start
  | .stopOp =>
      match p.stop with
      | Except.ok p' => p'
      | Except.error _ => p

/-- Run a whole history of operations. -/
def runOps (p : AgentPool) (ops : List PoolOp) : AgentPool :=
  ops.foldl applyOp p

/-! ### Concrete states and factories used in witnesses -/

/-- A factory that always succeeds with handle `7`. -/
def okFactory : Factory := fun _ _ => Except.ok 7

/-- A second always-succeeding factory, distinguishable from `okFactory`. -/
def otherFactory : Factory := fun _ _ => Except.ok 8

/-- A factory that always raises, like `_create_agent` without credentials. -/
def failFactory : Factory :=
  fun _ _ => Except.error (PoolError.constructionFailed "client unavailable")

/-- A factory whose handle depends on the provider key part. -/
def providerFactory : Factory :=
  fun _ provider => Except.ok (if provider = "anthropic" then 1 else 2)

/-- A pool that is exactly at capacity (2 entries, `max_agents = 2`). -/
def fullPool : AgentPool :=
  { agents := [("s1:nova-lite", 1, 0), ("s2:nova-lite", 2, 3)]
    ttl := 10, maxAgents := 2, cleanupTask := none }

/-- A pool well below capacity, with a stale and a fresh entry. -/
def roomyPool : AgentPool :=
  { agents := [("s1:nova-lite", 1, 0), ("s2:nova-lite", 2, 50)]
    ttl := 30, maxAgents := 100, cleanupTask := some () }

/-- The pool after `get("S1", "anthropic")` then `get("S1", "nova-lite")`. -/
def c8Pool : AgentPool :=
  ((((AgentPool.init 10 100).get providerFactory 0 "S1" "anthropic").2).get
      providerFactory 1 "S1" "nova-lite").2

/-- The pool after `get("a:b", "c")` on a fresh pool. -/
def c10Pool : AgentPool :=
  ((AgentPool.init 10 100).get okFactory 0 "a:b" "c").2

/-! ### Lemmas about the dict primitives -/

theorem dictKeys_nil {α : Type} : dictKeys ([] : List (String × α)) = [] := rfl

theorem dictKeys_cons {α : Type} (k : String) (v : α)
    (rest : List (String × α)) :
    dictKeys ((k, v) :: rest) = k :: dictKeys rest := rfl

theorem mem_dictKeys {α : Type} {d : List (String × α)} {k : String} :
    k ∈ dictKeys d ↔ ∃ e ∈ d, e.1 = k :=
  List.mem_map

theorem dictLookup_eq_none_iff {α : Type} (d : List (String × α)) (k : String) :
    dictLookup d k = none ↔ k ∉ dictKeys d := by
  induction d with
  | nil => simp [dictLookup, dictKeys_nil]
  | cons e rest ih =>
    obtain ⟨k', v⟩ := e
    rw [dictKeys_cons]
    by_cases h : k' = k
    · subst h
      simp [dictLookup]
    · simp [dictLookup, h, ih, List.mem_cons, Ne.symm h]

theorem dictLookup_eq_some_mem {α : Type} {d : List (String × α)} {k : String}
    {v : α} (h : dictLookup d k = some v) : (k, v) ∈ d := by
  induction d with
  | nil => simp [dictLookup] at h
  | cons e rest ih =>
    obtain ⟨k', v'⟩ := e
    by_cases hk : k' = k
    · subst hk
      simp [dictLookup] at h
      simp [h]
    · simp [dictLookup, hk] at h
      simp [ih h]

theorem mem_dictKeys_of_lookup_some {α : Type} {d : List (String × α)}
    {k : String} {v : α} (h : dictLookup d k = some v) : k ∈ dictKeys d :=
  List.mem_map_of_mem Prod.fst (dictLookup_eq_some_mem h)

theorem dictLookup_dictInsert_self {α : Type} (d : List (String × α))
    (k : String) (v : α) : dictLookup (dictInsert d k v) k = some v := by
  induction d with
  | nil => simp [dictInsert, dictLookup]
  | cons e rest ih =>
    obtain ⟨k', v'⟩ := e
    by_cases h : k' = k <;> simp [dictInsert, dictLookup, h, ih]

theorem dictLookup_dictInsert_ne {α : Type} (d : List (String × α))
    {k k' : String} (v : α) (h : k' ≠ k) :
    dictLookup (dictInsert d k v) k' = dictLookup d k' := by
  induction d with
  | nil => simp [dictInsert, dictLookup, Ne.symm h]
  | cons e rest ih =>
    obtain ⟨k'', v''⟩ := e
    by_cases hk : k'' = k
    · subst hk
      simp [dictInsert, dictLookup, Ne.symm h]
    · by_cases hk' : k'' = k' <;> simp [dictInsert, dictLookup, hk, hk', h, ih]

theorem dictInsert_length_of_mem {α : Type} {d : List (String × α)}
    {k : String} (v : α) (h : k ∈ dictKeys d) :
    (dictInsert d k v).length = d.length := by
  induction d with
  | nil => simp [dictKeys_nil] at h
  | cons e rest ih =>
    obtain ⟨k', v'⟩ := e
    by_cases hk : k' = k
    · simp [dictInsert, hk]
    · rw [dictKeys_cons, List.mem_cons] at h
      rcases h with h | h
      · exact absurd h.symm hk
      · simp [dictInsert, hk, ih h]

theorem dictInsert_length_of_not_mem {α : Type} {d : List (String × α)}
    {k : String} (v : α) (h : k ∉ dictKeys d) :
    (dictInsert d k v).length = d.length + 1 := by
  induction d with
  | nil => simp [dictInsert]
  | cons e rest ih =>
    obtain ⟨k', v'⟩ := e
    rw [dictKeys_cons, List.mem_cons] at h
    push_neg at h
    simp [dictInsert, Ne.symm h.1, ih h.2]

theorem dictInsert_length_le {α : Type} (d : List (String × α)) (k : String)
    (v : α) : (dictInsert d k v).length ≤ d.length + 1 := by
  by_cases h : k ∈ dictKeys d
  · rw [dictInsert_length_of_mem v h]; omega
  · rw [dictInsert_length_of_not_mem v h]

theorem dictRemove_length_le {α : Type} (d : List (String × α)) (k : String) :
    (dictRemove d k).length ≤ d.length := by
  induction d with
  | nil => simp [dictRemove]
  | cons e rest ih =>
    obtain ⟨k', v'⟩ := e
    by_cases h : k' = k
    · simp [dictRemove, h]
    · simp [dictRemove, h]
      omega

theorem dictRemove_length_of_mem {α : Type} {d : List (String × α)}
    {k : String} (h : k ∈ dictKeys d) :
    (dictRemove d k).length + 1 = d.length := by
  induction d with
  | nil => simp [dictKeys_nil] at h
  | cons e rest ih =>
    obtain ⟨k', v'⟩ := e
    by_cases hk : k' = k
    · simp [dictRemove, hk]
    · rw [dictKeys_cons, List.mem_cons] at h
      rcases h with h | h
      · exact absurd h.symm hk
      · simp [dictRemove, hk, ih h]

theorem dictRemove_sublist {α : Type} (d : List (String × α)) (k : String) :
    (dictRemove d k).Sublist d := by
  induction d with
  | nil => simp [dictRemove]
  | cons e rest ih =>
    obtain ⟨k', v'⟩ := e
    by_cases h : k' = k
    · simpa [dictRemove, h] using List.sublist_cons_self _ _
    · simpa [dictRemove, h] using ih.cons₂ (k', v')

theorem dictKeys_dictRemove_subset {α : Type} (d : List (String × α))
    (k k' : String) (h : k' ∈ dictKeys (dictRemove d k)) : k' ∈ dictKeys d :=
  List.Sublist.subset ((dictRemove_sublist d k).map Prod.fst) h

theorem dictLookup_dictRemove_of_none {α : Type} {d : List (String × α)}
    {k : String} (k' : String) (h : dictLookup d k = none) :
    dictLookup (dictRemove d k') k = none := by
  rw [dictLookup_eq_none_iff] at h ⊢
  exact fun hmem => h (dictKeys_dictRemove_subset d k' k hmem)

theorem dictRemove_eq_of_none {α : Type} {d : List (String × α)} {k : String}
    (h : dictLookup d k = none) : dictRemove d k = d := by
  induction d with
  | nil => simp [dictRemove]
  | cons e rest ih =>
    obtain ⟨k', v'⟩ := e
    have hd : dictLookup ((k', v') :: rest) k
        = if k' = k then some v' else dictLookup rest k := rfl
    by_cases hk : k' = k
    · rw [hd, if_pos hk] at h
      exact absurd h (by simp)
    · rw [hd, if_neg hk] at h
      rw [show dictRemove ((k', v') :: rest) k
          = if k' = k then rest else (k', v') :: dictRemove rest k from rfl,
        if_neg hk, ih h]

/-! ### Nodup-key lemmas (a Python dict never holds two bindings of a key) -/

theorem dictLookup_eq_of_mem_nodup {α : Type} {d : List (String × α)}
    {k : String} {v : α} (hnd : (dictKeys d).Nodup) (hmem : (k, v) ∈ d) :
    dictLookup d k = some v := by
  induction d with
  | nil => simp at hmem
  | cons e rest ih =>
    obtain ⟨k', v'⟩ := e
    rw [dictKeys_cons, List.nodup_cons] at hnd
    rcases List.mem_cons.mp hmem with h | h
    · obtain ⟨hk, hv⟩ := Prod.mk.injEq .. ▸ h
      simp [dictLookup, hk.symm, hv]
    · have hk : k' ≠ k := by
        intro hkk
        subst hkk
        exact hnd.1 (List.mem_map_of_mem Prod.fst h)
      simp [dictLookup, hk, ih hnd.2 h]

theorem dictKeys_nodup_inj {α : Type} {d : List (String × α)}
    {e e' : String × α} (hnd : (dictKeys d).Nodup) (he : e ∈ d) (he' : e' ∈ d)
    (hk : e.1 = e'.1) : e = e' := by
  obtain ⟨k, v⟩ := e
  obtain ⟨k', v'⟩ := e'
  simp only at hk
  subst hk
  have h1 := dictLookup_eq_of_mem_nodup hnd he
  have h2 := dictLookup_eq_of_mem_nodup hnd he'
  rw [h1] at h2
  simp at h2
  simp [h2]

theorem dictLookup_dictRemove_self_nodup {α : Type} {d : List (String × α)}
    {k : String} (hnd : (dictKeys d).Nodup) :
    dictLookup (dictRemove d k) k = none := by
  induction d with
  | nil => simp [dictRemove, dictLookup]
  | cons e rest ih =>
    obtain ⟨k', v'⟩ := e
    rw [dictKeys_cons, List.nodup_cons] at hnd
    by_cases h : k' = k
    · subst h
      rw [dictRemove]
      simp only [if_pos rfl]
      exact (dictLookup_eq_none_iff rest k').mpr hnd.1
    · simp [dictRemove, h, dictLookup, ih hnd.2]

theorem dictKeys_dictInsert_mem {α : Type} {d : List (String × α)}
    {k k' : String} (v : α) (h : k' ∈ dictKeys (dictInsert d k v)) :
    k' ∈ dictKeys d ∨ k' = k := by
  induction d with
  | nil =>
    rw [show dictInsert ([] : List (String × α)) k v = [(k, v)] from rfl,
      dictKeys_cons, List.mem_cons] at h
    rcases h with h | h
    · exact Or.inr h
    · simp [dictKeys_nil] at h
  | cons e rest ih =>
    obtain ⟨k'', v''⟩ := e
    have hd : dictInsert ((k'', v'') :: rest) k v
        = if k'' = k then (k, v) :: rest
          else (k'', v'') :: dictInsert rest k v := rfl
    by_cases hk : k'' = k
    · rw [hd, if_pos hk, dictKeys_cons, List.mem_cons] at h
      rw [dictKeys_cons, List.mem_cons]
      rcases h with h | h
      · exact Or.inr h
      · exact Or.inl (Or.inr h)
    · rw [hd, if_neg hk, dictKeys_cons, List.mem_cons] at h
      rw [dictKeys_cons, List.mem_cons]
      rcases h with h | h
      · exact Or.inl (Or.inl h)
      · rcases ih h with h' | h'
        · exact Or.inl (Or.inr h')
        · exact Or.inr h'

theorem dictKeys_dictInsert_nodup {α : Type} {d : List (String × α)}
    (k : String) (v : α) (hnd : (dictKeys d).Nodup) :
    (dictKeys (dictInsert d k v)).Nodup := by
  induction d with
  | nil =>
    rw [show dictInsert ([] : List (String × α)) k v = [(k, v)] from rfl]
    simp [dictKeys_cons, dictKeys_nil]
  | cons e rest ih =>
    obtain ⟨k', v'⟩ := e
    have hd : dictInsert ((k', v') :: rest) k v
        = if k' = k then (k, v) :: rest
          else (k', v') :: dictInsert rest k v := rfl
    rw [dictKeys_cons, List.nodup_cons] at hnd
    by_cases h : k' = k
    · rw [hd, if_pos h, dictKeys_cons, List.nodup_cons]
      exact ⟨h ▸ hnd.1, hnd.2⟩
    · rw [hd, if_neg h, dictKeys_cons, List.nodup_cons]
      refine ⟨fun hmem => ?_, ih hnd.2⟩
      rcases dictKeys_dictInsert_mem v hmem with h' | h'
      · exact hnd.1 h'
      · exact h h'

theorem dictKeys_dictRemove_nodup {α : Type} (d : List (String × α))
    (k : String) (hnd : (dictKeys d).Nodup) :
    (dictKeys (dictRemove d k)).Nodup :=
  ((dictRemove_sublist d k).map Prod.fst).nodup hnd

theorem dictRemove_eq_filter_of_nodup {α : Type} {d : List (String × α)}
    (k : String) (hnd : (dictKeys d).Nodup) :
    dictRemove d k = d.filter (fun e => decide (e.1 ≠ k)) := by
  induction d with
  | nil => simp [dictRemove]
  | cons e rest ih =>
    obtain ⟨k', v'⟩ := e
    rw [dictKeys_cons, List.nodup_cons] at hnd
    have hd : dictRemove ((k', v') :: rest) k
        = if k' = k then rest else (k', v') :: dictRemove rest k := rfl
    by_cases h : k' = k
    · rw [hd, if_pos h, List.filter_cons]
      rw [if_neg (by simp [h])]
      symm
      apply List.filter_eq_self.mpr
      intro e he
      simp only [ne_eq, decide_eq_true_eq]
      intro hk
      exact hnd.1 (h ▸ hk ▸ List.mem_map_of_mem Prod.fst he)
    · rw [hd, if_neg h, List.filter_cons]
      rw [if_pos (by simp [h])]
      rw [ih hnd.2]

theorem dictLookup_filter {α : Type} {d : List (String × α)} {k : String}
    {v : α} (p : String × α → Bool) (h : dictLookup d k = some v)
    (hp : p (k, v) = true) : dictLookup (d.filter p) k = some v := by
  induction d with
  | nil => simp [dictLookup] at h
  | cons e rest ih =>
    obtain ⟨k', v'⟩ := e
    have hd : dictLookup ((k', v') :: rest) k
        = if k' = k then some v' else dictLookup rest k := rfl
    by_cases hk : k' = k
    · rw [hd, if_pos hk, Option.some.injEq] at h
      subst h
      subst hk
      rw [List.filter_cons, if_pos hp]
      simp [dictLookup]
    · rw [hd, if_neg hk] at h
      rw [List.filter_cons]
      by_cases hpe : p (k', v') = true
      · rw [if_pos hpe]
        simp [dictLookup, hk, ih h]
      · rw [if_neg hpe]
        exact ih h

theorem foldl_dictRemove_length_le {α : Type} (ks : List String)
    (l : List (String × α)) :
    (ks.foldl (fun d k => dictRemove d k) l).length ≤ l.length := by
  induction ks generalizing l with
  | nil => simp
  | cons k ks ih =>
    rw [List.foldl_cons]
    exact le_trans (ih (dictRemove l k)) (dictRemove_length_le l k)

theorem foldl_dictRemove_eq_filter {α : Type} (ks : List String)
    (l : List (String × α)) (hnd : (dictKeys l).Nodup) :
    ks.foldl (fun d k => dictRemove d k) l
      = l.filter (fun e => decide (e.1 ∉ ks)) := by
  induction ks generalizing l with
  | nil =>
    rw [List.foldl_nil]
    symm
    apply List.filter_eq_self.mpr
    intro a ha
    simp
  | cons k ks ih =>
    rw [List.foldl_cons]
    rw [ih (dictRemove l k) (dictKeys_dictRemove_nodup l k hnd)]
    rw [dictRemove_eq_filter_of_nodup k hnd]
    rw [List.filter_filter]
    apply List.filter_congr
    intro e he
    by_cases h1 : e.1 = k <;> by_cases h2 : e.1 ∈ ks <;>
      simp [h1, h2, List.mem_cons]

/-! ### The eviction scan picks a minimal entry -/

theorem oldestEntry_mem (e : String × Agent × Int)
    (l : List (String × Agent × Int)) : oldestEntry e l ∈ e :: l := by
  induction l generalizing e with
  | nil => simp [oldestEntry]
  | cons x xs ih =>
    rw [oldestEntry, List.foldl_cons]
    by_cases hx : x.2.2 < e.2.2
    · rw [if_pos hx]
      have h := ih x
      rw [oldestEntry] at h
      rcases List.mem_cons.mp h with h' | h'
      · rw [h']
        exact List.mem_cons.mpr (Or.inr (List.mem_cons_self x xs))
      · exact List.mem_cons.mpr (Or.inr (List.mem_cons.mpr (Or.inr h')))
    · rw [if_neg hx]
      have h := ih e
      rw [oldestEntry] at h
      rcases List.mem_cons.mp h with h' | h'
      · rw [h']
        exact List.mem_cons_self e (x :: xs)
      · exact List.mem_cons.mpr (Or.inr (List.mem_cons.mpr (Or.inr h')))

theorem oldestEntry_min (e : String × Agent × Int)
    (l : List (String × Agent × Int)) :
    ∀ y ∈ e :: l, (oldestEntry e l).2.2 ≤ y.2.2 := by
  induction l generalizing e with
  | nil =>
    intro y hy
    rcases List.mem_cons.mp hy with h | h
    · rw [oldestEntry, List.foldl_nil, h]
    · simp at h
  | cons x xs ih =>
    intro y hy
    rw [oldestEntry, List.foldl_cons]
    by_cases hx : x.2.2 < e.2.2
    · rw [if_pos hx]
      have hmin := ih x
      rw [oldestEntry] at hmin
      rcases List.mem_cons.mp hy with h | h
      · rw [h]
        exact le_trans (hmin x (List.mem_cons_self x xs)) (le_of_lt hx)
      · exact hmin y h
    · rw [if_neg hx]
      have hmin := ih e
      rw [oldestEntry] at hmin
      rcases List.mem_cons.mp hy with h | h
      · rw [h]
        exact hmin e (List.mem_cons_self e xs)
      · rcases List.mem_cons.mp h with h' | h'
        · rw [h']
          exact le_trans (hmin e (List.mem_cons_self e xs)) (le_of_not_lt hx)
        · exact hmin y (List.mem_cons.mpr (Or.inr h'))

theorem oldestKey_spec {l : List (String × Agent × Int)} {k : String}
    (h : oldestKey l = some k) :
    ∃ a la, (k, a, la) ∈ l ∧ ∀ y ∈ l, la ≤ y.2.2 := by
  match l with
  | [] => simp [oldestKey] at h
  | e :: es =>
    rw [oldestKey, Option.some.injEq] at h
    refine ⟨(oldestEntry e es).2.1, (oldestEntry e es).2.2, ?_, ?_⟩
    · have hm := oldestEntry_mem e es
      rw [← h]
      simpa using hm
    · exact fun y hy => oldestEntry_min e es y hy

theorem oldestKey_mem_dictKeys {l : List (String × Agent × Int)} {k : String}
    (h : oldestKey l = some k) : k ∈ dictKeys l := by
  obtain ⟨a, la, hmem, -⟩ := oldestKey_spec h
  exact List.mem_map_of_mem Prod.fst hmem

theorem oldestKey_eq_none_iff (l : List (String × Agent × Int)) :
    oldestKey l = none ↔ l = [] := by
  cases l <;> simp [oldestKey]

/-! ### Case characterizations of `get` and field preservation -/

theorem get_hit {p : AgentPool} {s pr : String} {a : Agent} {la : Int}
    (f : Factory) (now : Int)
    (h : dictLookup p.agents (cacheKey s pr) = some (a, la)) :
    p.get f now s pr = (Except.ok (a, false),
      { p with agents := dictInsert p.agents (cacheKey s pr) (a, now) }) := by
  simp only [AgentPool.get, h]

theorem get_miss_err {p : AgentPool} {s pr : String} {e : PoolError}
    {f : Factory} (now : Int)
    (habs : dictLookup p.agents (cacheKey s pr) = none)
    (hf : f s pr = Except.error e) :
    p.get f now s pr = (Except.error e,
      if (p.agents.length : Int) ≥ p.maxAgents then p.evictOldest else p) := by
  simp only [AgentPool.get, habs, hf]

theorem get_miss_ok_fst {p : AgentPool} {s pr : String} {a : Agent}
    {f : Factory} (now : Int)
    (habs : dictLookup p.agents (cacheKey s pr) = none)
    (hf : f s pr = Except.ok a) :
    (p.get f now s pr).1 = Except.ok (a, true) := by
  simp only [AgentPool.get, habs, hf]

theorem get_miss_ok_agents {p : AgentPool} {s pr : String} {a : Agent}
    {f : Factory} (now : Int)
    (habs : dictLookup p.agents (cacheKey s pr) = none)
    (hf : f s pr = Except.ok a) :
    ((p.get f now s pr).2).agents = dictInsert
      (if (p.agents.length : Int) ≥ p.maxAgents then p.evictOldest
        else p).agents (cacheKey s pr) (a, now) := by
  simp only [AgentPool.get, habs, hf]

theorem evictOldest_ttl (p : AgentPool) : p.evictOldest.ttl = p.ttl := by
  rw [AgentPool.evictOldest]
  cases oldestKey p.agents <;> rfl

theorem evictOldest_maxAgents (p : AgentPool) :
    p.evictOldest.maxAgents = p.maxAgents := by
  rw [AgentPool.evictOldest]
  cases oldestKey p.agents <;> rfl

theorem evictOldest_length_le (p : AgentPool) :
    p.evictOldest.agents.length ≤ p.agents.length := by
  rw [AgentPool.evictOldest]
  cases oldestKey p.agents with
  | none => exact le_refl _
  | some k => exact dictRemove_length_le p.agents k

theorem evictOldest_lookup_none {p : AgentPool} {k : String}
    (h : dictLookup p.agents k = none) :
    dictLookup p.evictOldest.agents k = none := by
  rw [AgentPool.evictOldest]
  cases oldestKey p.agents with
  | none => exact h
  | some k' => exact dictLookup_dictRemove_of_none k' h

theorem evictOldest_nodup {p : AgentPool} (h : PoolWF p) :
    (dictKeys p.evictOldest.agents).Nodup := by
  rw [AgentPool.evictOldest]
  cases oldestKey p.agents with
  | none => exact h
  | some k => exact dictKeys_dictRemove_nodup p.agents k h

theorem get_ttl (p : AgentPool) (f : Factory) (now : Int) (s pr : String) :
    ((p.get f now s pr).2).ttl = p.ttl := by
  cases hl : dictLookup p.agents (cacheKey s pr) with
  | some v =>
    obtain ⟨a, la⟩ := v
    rw [get_hit f now hl]
  | none =>
    cases hf : f s pr with
    | error e =>
      rw [get_miss_err now hl hf]
      split
      · exact evictOldest_ttl p
      · rfl
    | ok a =>
      simp only [AgentPool.get, hl, hf]
      show (if (p.agents.length : Int) ≥ p.maxAgents then p.evictOldest
        else p).ttl = p.ttl
      split
      · exact evictOldest_ttl p
      · rfl

theorem get_maxAgents (p : AgentPool) (f : Factory) (now : Int)
    (s pr : String) : ((p.get f now s pr).2).maxAgents = p.maxAgents := by
  cases hl : dictLookup p.agents (cacheKey s pr) with
  | some v =>
    obtain ⟨a, la⟩ := v
    rw [get_hit f now hl]
  | none =>
    cases hf : f s pr with
    | error e =>
      rw [get_miss_err now hl hf]
      split
      · exact evictOldest_maxAgents p
      · rfl
    | ok a =>
      simp only [AgentPool.get, hl, hf]
      show (if (p.agents.length : Int) ≥ p.maxAgents then p.evictOldest
        else p).maxAgents = p.maxAgents
      split
      · exact evictOldest_maxAgents p
      · rfl

/-! ### Well-formedness (unique keys) is preserved by every operation -/

theorem PoolWF.get {p : AgentPool} (hW : PoolWF p) (f : Factory) (now : Int)
    (s pr : String) : PoolWF ((p.get f now s pr).2) := by
  unfold PoolWF at *
  cases hl : dictLookup p.agents (cacheKey s pr) with
  | some v =>
    obtain ⟨a, la⟩ := v
    rw [get_hit f now hl]
    exact dictKeys_dictInsert_nodup _ _ hW
  | none =>
    cases hf : f s pr with
    | error e =>
      rw [get_miss_err now hl hf]
      split
      · exact evictOldest_nodup hW
      · exact hW
    | ok a =>
      rw [get_miss_ok_agents now hl hf]
      apply dictKeys_dictInsert_nodup
      split
      · exact evictOldest_nodup hW
      · exact hW

theorem get_ok_lookup {p : AgentPool} {f : Factory} {now : Int}
    {s pr : String} {a : Agent} {b : Bool}
    (h : (p.get f now s pr).1 = Except.ok (a, b)) :
    dictLookup ((p.get f now s pr).2).agents (cacheKey s pr)
      = some (a, now) := by
  cases hl : dictLookup p.agents (cacheKey s pr) with
  | some v =>
    obtain ⟨a', la⟩ := v
    rw [get_hit f now hl] at h ⊢
    simp only [Except.ok.injEq, Prod.mk.injEq] at h
    rw [← h.1]
    exact dictLookup_dictInsert_self p.agents (cacheKey s pr) (a', now)
  | none =>
    cases hf : f s pr with
    | error e =>
      rw [get_miss_err now hl hf] at h
      exact absurd h (by simp)
    | ok a' =>
      have h1 := get_miss_ok_fst now hl hf
      rw [h1] at h
      simp only [Except.ok.injEq, Prod.mk.injEq] at h
      rw [get_miss_ok_agents now hl hf, ← h.1]
      exact dictLookup_dictInsert_self _ (cacheKey s pr) (a', now)

/-! ### Size bounds for every operation -/

theorem get_length_bound {p : AgentPool} (f : Factory) (now : Int)
    (s pr : String) (h : (p.agents.length : Int) ≤ max p.maxAgents 1) :
    (((p.get f now s pr).2).agents.length : Int) ≤ max p.maxAgents 1 := by
  have hM1 : p.maxAgents ≤ max p.maxAgents 1 := le_max_left _ _
  have hM2 : (1 : Int) ≤ max p.maxAgents 1 := le_max_right _ _
  cases hl : dictLookup p.agents (cacheKey s pr) with
  | some v =>
    obtain ⟨a, la⟩ := v
    rw [get_hit f now hl]
    show ((dictInsert p.agents (cacheKey s pr) (a, now)).length : Int)
      ≤ max p.maxAgents 1
    rw [dictInsert_length_of_mem _ (mem_dictKeys_of_lookup_some hl)]
    exact h
  | none =>
    cases hf : f s pr with
    | error e =>
      rw [get_miss_err now hl hf]
      show ((if (p.agents.length : Int) ≥ p.maxAgents then p.evictOldest
        else p).agents.length : Int) ≤ max p.maxAgents 1
      split
      · have := evictOldest_length_le p
        omega
      · exact h
    | ok a =>
      rw [get_miss_ok_agents now hl hf]
      by_cases hcap : (p.agents.length : Int) ≥ p.maxAgents
      · rw [if_pos hcap]
        cases hagents : p.agents with
        | nil =>
          have hev : p.evictOldest = p := by
            rw [AgentPool.evictOldest,
              (oldestKey_eq_none_iff p.agents).mpr hagents]
          rw [hev, hagents]
          have hins := dictInsert_length_le
            ([] : List (String × Agent × Int)) (cacheKey s pr) (a, now)
          simp only [List.length_nil] at hins
          omega
        | cons e es =>
          have hsome : oldestKey p.agents = some (oldestEntry e es).1 := by
            rw [hagents, oldestKey]
          have hmem : (oldestEntry e es).1 ∈ dictKeys p.agents :=
            oldestKey_mem_dictKeys hsome
          have hrem : (dictRemove p.agents (oldestEntry e es).1).length + 1
              = p.agents.length := dictRemove_length_of_mem hmem
          have hev : p.evictOldest.agents
              = dictRemove p.agents (oldestEntry e es).1 := by
            rw [AgentPool.evictOldest, hsome]
          rw [hev]
          have hins := dictInsert_length_le
            (dictRemove p.agents (oldestEntry e es).1) (cacheKey s pr) (a, now)
          omega
      · rw [if_neg hcap]
        have hins := dictInsert_length_le p.agents (cacheKey s pr) (a, now)
        omega

theorem remove_length_le (p : AgentPool) (s pr : String) :
    (p.remove s pr).agents.length ≤ p.agents.length := by
  rw [AgentPool.remove]
  cases dictLookup p.agents (cacheKey s pr) with
  | some v => exact dictRemove_length_le p.agents (cacheKey s pr)
  | none => exact le_refl _

theorem remove_maxAgents (p : AgentPool) (s pr : String) :
    (p.remove s pr).maxAgents = p.maxAgents := by
  rw [AgentPool.remove]
  cases dictLookup p.agents (cacheKey s pr) <;> rfl

theorem cleanupExpired_length_le (p : AgentPool) (now : Int) :
    (p.cleanupExpired now).agents.length ≤ p.agents.length :=
  foldl_dictRemove_length_le _ p.agents

theorem cleanupExpired_maxAgents (p : AgentPool) (now : Int) :
    (p.cleanupExpired now).maxAgents = p.maxAgents := rfl

theorem cleanupExpired_ttl (p : AgentPool) (now : Int) :
    (p.cleanupExpired now).ttl = p.ttl := rfl

theorem stop_eq (p : AgentPool) :
    p.stop = Except.ok { p with agents := [] } := by
  rw [AgentPool.stop]
  cases p.cleanupTask <;> rfl

theorem applyOp_maxAgents (p : AgentPool) (op : PoolOp) :
    (applyOp p op).maxAgents = p.maxAgents := by
  cases op with
  | getOp s pr fr now => exact get_maxAgents p _ now s pr
  | removeOp s pr => exact remove_maxAgents p s pr
  | cleanupOp now => exact cleanupExpired_maxAgents p now
  | startOp => rfl
  | stopOp => rw [applyOp, stop_eq]

theorem applyOp_length_bound {p : AgentPool} (op : PoolOp)
    (h : (p.agents.length : Int) ≤ max p.maxAgents 1) :
    ((applyOp p op).agents.length : Int) ≤ max (applyOp p op).maxAgents 1 := by
  rw [applyOp_maxAgents]
  cases op with
  | getOp s pr fr now => exact get_length_bound _ now s pr h
  | removeOp s pr =>
    have := remove_length_le p s pr
    show (((p.remove s pr).agents.length : Int)) ≤ max p.maxAgents 1
    omega
  | cleanupOp now =>
    have := cleanupExpired_length_le p now
    show (((p.cleanupExpired now).agents.length : Int)) ≤ max p.maxAgents 1
    omega
  | startOp => exact h
  | stopOp =>
    show (((applyOp p PoolOp.stopOp).agents.length : Int)) ≤ max p.maxAgents 1
    rw [applyOp, stop_eq]
    simp

theorem runOps_inv {p : AgentPool} (ops : List PoolOp)
    (h : (p.agents.length : Int) ≤ max p.maxAgents 1) :
    ((runOps p ops).agents.length : Int)
      ≤ max (runOps p ops).maxAgents 1 := by
  induction ops generalizing p with
  | nil => exact h
  | cons op ops ih => exact ih (applyOp_length_bound op h)

theorem runOps_maxAgents (p : AgentPool) (ops : List PoolOp) :
    (runOps p ops).maxAgents = p.maxAgents := by
  induction ops generalizing p with
  | nil => rfl
  | cons op ops ih => rw [runOps, List.foldl_cons, ← runOps, ih,
      applyOp_maxAgents]

/-! ### Characterization of the reaper sweep -/

theorem cleanupExpired_eq_filter {p : AgentPool} (now : Int) (hW : PoolWF p) :
    (p.cleanupExpired now).agents
      = p.agents.filter (fun y => decide (now - y.2.2 ≤ p.ttl)) := by
  show (dictKeys (p.agents.filter
      (fun e => decide (now - e.2.2 > p.ttl)))).foldl
        (fun d k => dictRemove d k) p.agents
    = p.agents.filter (fun y => decide (now - y.2.2 ≤ p.ttl))
  rw [foldl_dictRemove_eq_filter _ p.agents hW]
  apply List.filter_congr
  intro e he
  by_cases hP : now - e.2.2 > p.ttl
  · have hmem : e.1 ∈ dictKeys
        (p.agents.filter (fun y => decide (now - y.2.2 > p.ttl))) :=
      List.mem_map_of_mem Prod.fst (List.mem_filter.mpr ⟨he, by simp [hP]⟩)
    simp [hmem, hP, not_le.mpr hP]
  · have hkeys : e.1 ∉ dictKeys
        (p.agents.filter (fun y => decide (now - y.2.2 > p.ttl))) := by
      intro hmem
      obtain ⟨e', he', hfst⟩ := mem_dictKeys.mp hmem
      have he'l : e' ∈ p.agents := (List.mem_filter.mp he').1
      have hPe' := (List.mem_filter.mp he').2
      simp only [decide_eq_true_eq] at hPe'
      have heq : e' = e := dictKeys_nodup_inj hW he'l he hfst
      rw [heq] at hPe'
      exact hP hPe'
    simp [hkeys, not_lt.mp hP]

/-! ## The claims -/

/-- C1, counterexample to the frozen claim: the claim asserts that a factory
failure leaves `active_count` and `active_keys` exactly unchanged for every
prior pool state, including a pool already at capacity.  On `fullPool`
(2 entries, capacity 2) a `get` for a fresh key runs `_evict_oldest` before
the factory raises, so the error propagates but `active_count` drops from 2
to 1: the state is not unchanged. -/
theorem C1_counterexample :
    (fullPool.get failFactory 5 "s3" "nova-lite").1
        = Except.error (PoolError.constructionFailed "client unavailable") ∧
    fullPool.activeSessions = 2 ∧
    ((fullPool.get failFactory 5 "s3" "nova-lite").2).activeSessions = 1 ∧
    (fullPool.get failFactory 5 "s3" "nova-lite").2 ≠ fullPool :=
  ⟨rfl, by decide⟩

/-- C1 (amended): if the factory fails for an absent key, the error
propagates to the caller and no entry for that key exists afterwards; the
pool state is exactly unchanged when the pool was below capacity, while at
or above capacity the state is the pool after the one `_evict_oldest` call
that ran before the factory. -/
theorem C1_factory_failure (p : AgentPool) (f : Factory) (now : Int)
    (s pr : String) (e : PoolError)
    (habs : dictLookup p.agents (cacheKey s pr) = none)
    (hf : f s pr = Except.error e) :
    (p.get f now s pr).1 = Except.error e ∧
    dictLookup ((p.get f now s pr).2).agents (cacheKey s pr) = none ∧
    (p.get f now s pr).2
      = (if (p.agents.length : Int) ≥ p.maxAgents then p.evictOldest
          else p) ∧
    ((p.agents.length : Int) < p.maxAgents → (p.get f now s pr).2 = p) := by
  rw [get_miss_err now habs hf]
  refine ⟨rfl, ?_, rfl, ?_⟩
  · split
    · exact evictOldest_lookup_none habs
    · exact habs
  · intro hlt
    rw [if_neg (not_le.mpr hlt)]

/-- C1 witness: the amended theorem applied to `roomyPool` (2 entries,
capacity 100): below capacity the failing `get` leaves the pool unchanged. -/
theorem C1_factory_failure_witness :
    (roomyPool.get failFactory 60 "s3" "nova-lite").2 = roomyPool :=
  (C1_factory_failure roomyPool failFactory 60 "s3" "nova-lite"
      (PoolError.constructionFailed "client unavailable") (by decide)
      rfl).2.2.2 (by decide)

/-- C2, counterexample to the frozen claim: with capacity 0 a single `get`
still inserts one entry (`_evict_oldest` is a no-op on the empty dict), so
"at most `capacity` entries after any `get`" fails for capacity ≤ 0. -/
theorem C2_counterexample :
    ¬ ((((AgentPool.init 10 0).get okFactory 0 "s1" "nova-lite").2).activeSessions
        : Int) ≤ (AgentPool.init 10 0).maxAgents := by
  decide

/-- C2 (amended): after every sequence of pool operations from a fresh pool,
at most `max capacity 1` entries exist; in particular at most `capacity`
entries whenever `capacity ≥ 1`, while for `capacity ≤ 0` the count can
reach (but never exceed) one. -/
theorem C2_capacity_bound (ttl maxA : Int) (ops : List PoolOp) :
    ((runOps (AgentPool.init ttl maxA) ops).activeSessions : Int)
      ≤ max maxA 1 := by
  have h0 : (((AgentPool.init ttl maxA).agents.length : Int))
      ≤ max (AgentPool.init ttl maxA).maxAgents 1 := by
    have h1 : (1 : Int) ≤ max maxA 1 := le_max_right _ _
    show ((List.length [] : Nat) : Int) ≤ max maxA 1
    simp only [List.length_nil]
    omega
  have h := runOps_inv ops h0
  rw [runOps_maxAgents] at h
  exact h

/-- C3: after any successful `get(K)`, a second `get(K)` (with any factory
at all) returns the identical handle with the factory-invoked flag `false`,
and refreshes the entry's `last_access` to the second call's time. -/
theorem C3_reuse (p : AgentPool) (f g : Factory) (t1 t2 : Int)
    (s pr : String) (a : Agent) (b : Bool)
    (h : (p.get f t1 s pr).1 = Except.ok (a, b)) :
    (((p.get f t1 s pr).2).get g t2 s pr).1 = Except.ok (a, false) ∧
    dictLookup ((((p.get f t1 s pr).2).get g t2 s pr).2).agents
      (cacheKey s pr) = some (a, t2) := by
  have hl := get_ok_lookup h
  constructor
  · rw [get_hit g t2 hl]
  · rw [get_hit g t2 hl]
    exact dictLookup_dictInsert_self _ _ _

/-- C3 witness: two `get("S1")` on a fresh pool; the second uses a factory
that would fail, so the returned handle can only be the cached one. -/
theorem C3_reuse_witness :
    ((((AgentPool.init 10 100).get okFactory 0 "S1" "nova-lite").2).get
        failFactory 3 "S1" "nova-lite").1 = Except.ok (7, false) :=
  (C3_reuse (AgentPool.init 10 100) okFactory failFactory 0 3 "S1"
    "nova-lite" 7 true rfl).1

/-- C4: a `get` for an absent key on a non-empty pool at (or above) capacity
evicts exactly one entry, one whose `last_access` is minimal among all
entries, and inserts the new one, so the entry count is unchanged — in
particular still at most the capacity when the pool was exactly full. -/
theorem C4_lru_eviction (p : AgentPool) (f : Factory) (now : Int)
    (s pr : String) (a : Agent)
    (hW : PoolWF p)
    (habs : dictLookup p.agents (cacheKey s pr) = none)
    (hcap : (p.agents.length : Int) ≥ p.maxAgents)
    (hne : p.agents ≠ [])
    (hf : f s pr = Except.ok a) :
    ∃ k a0 la,
      (k, a0, la) ∈ p.agents ∧
      (∀ y ∈ p.agents, la ≤ y.2.2) ∧
      dictLookup ((p.get f now s pr).2).agents k = none ∧
      ((p.get f now s pr).2).agents.length = p.agents.length ∧
      ((p.agents.length : Int) = p.maxAgents →
        (((p.get f now s pr).2).agents.length : Int) ≤ p.maxAgents) := by
  cases hX : oldestKey p.agents with
  | none => exact absurd ((oldestKey_eq_none_iff p.agents).mp hX) hne
  | some k =>
    obtain ⟨a0, la, hmem, hmin⟩ := oldestKey_spec hX
    have hkmem : k ∈ dictKeys p.agents := oldestKey_mem_dictKeys hX
    have hkkey : k ≠ cacheKey s pr := by
      intro he
      rw [dictLookup_eq_none_iff] at habs
      exact habs (he ▸ hkmem)
    have hev : p.evictOldest.agents = dictRemove p.agents k := by
      rw [AgentPool.evictOldest, hX]
    have hagents : ((p.get f now s pr).2).agents
        = dictInsert (dictRemove p.agents k) (cacheKey s pr) (a, now) := by
      rw [get_miss_ok_agents now habs hf, if_pos hcap, hev]
    have hlook : dictLookup ((p.get f now s pr).2).agents k = none := by
      rw [hagents, dictLookup_dictInsert_ne _ _ hkkey]
      exact dictLookup_dictRemove_self_nodup hW
    have hnotmem : cacheKey s pr ∉ dictKeys (dictRemove p.agents k) := by
      rw [← dictLookup_eq_none_iff]
      exact dictLookup_dictRemove_of_none k habs
    have hlen : ((p.get f now s pr).2).agents.length = p.agents.length := by
      rw [hagents, dictInsert_length_of_not_mem _ hnotmem,
        dictRemove_length_of_mem hkmem]
    refine ⟨k, a0, la, hmem, hmin, hlook, hlen, fun hceq => ?_⟩
    rw [hlen]
    exact le_of_eq hceq

/-- C4 witness: `fullPool` is exactly at capacity 2; a `get` for the fresh
key `s3` evicts the minimal-timestamp entry and keeps the count at 2. -/
theorem C4_lru_eviction_witness :
    ∃ k a0 la,
      (k, a0, la) ∈ fullPool.agents ∧
      (∀ y ∈ fullPool.agents, la ≤ y.2.2) ∧
      dictLookup ((fullPool.get okFactory 5 "s3" "nova-lite").2).agents k
        = none ∧
      ((fullPool.get okFactory 5 "s3" "nova-lite").2).agents.length
        = fullPool.agents.length ∧
      ((fullPool.agents.length : Int) = fullPool.maxAgents →
        (((fullPool.get okFactory 5 "s3" "nova-lite").2).agents.length : Int)
          ≤ fullPool.maxAgents) :=
  C4_lru_eviction fullPool okFactory 5 "s3" "nova-lite" 7 (by decide)
    (by decide) (by decide) (by decide) rfl

/-- C5: a reaper sweep at time `now` keeps exactly the entries with
`now - last_access ≤ ttl` (removing all others and nothing else), and an
entry refreshed by a successful `get` at time `t` with `now - t ≤ ttl`
survives the sweep with its handle and timestamp intact. -/
theorem C5_reaper_sweep (p : AgentPool) (now : Int) (hW : PoolWF p) :
    (p.cleanupExpired now).agents
      = p.agents.filter (fun y => decide (now - y.2.2 ≤ p.ttl)) ∧
    (∀ f t s pr a b,
      (p.get f t s pr).1 = Except.ok (a, b) → now - t ≤ p.ttl →
        dictLookup (((p.get f t s pr).2).cleanupExpired now).agents
          (cacheKey s pr) = some (a, t)) := by
  refine ⟨cleanupExpired_eq_filter now hW, ?_⟩
  intro f t s pr a b hok hfresh
  have hW' := PoolWF.get hW f t s pr
  have hl := get_ok_lookup hok
  rw [cleanupExpired_eq_filter now hW']
  apply dictLookup_filter _ hl
  simp only [decide_eq_true_eq]
  rw [get_ttl]
  exact hfresh

/-- C5 witness: sweeping `roomyPool` (ttl 30) at time 60 keeps exactly the
entry accessed at time 50 and removes the one accessed at time 0. -/
theorem C5_reaper_sweep_witness :
    (roomyPool.cleanupExpired 60).agents
      = roomyPool.agents.filter
          (fun y => decide (60 - y.2.2 ≤ roomyPool.ttl)) :=
  (C5_reaper_sweep roomyPool 60 (by decide)).1

/-- C6: `remove` deletes the binding of the composite key unconditionally
(no timestamp or TTL is consulted), is a no-op when the key is absent, and
a `get` immediately after a `remove` of the same key always invokes the
factory and returns whatever the factory produced. -/
theorem C6_remove_unconditional (p : AgentPool) (s pr : String) (f : Factory)
    (now : Int) (hW : PoolWF p) :
    (p.remove s pr).agents = dictRemove p.agents (cacheKey s pr) ∧
    dictLookup (p.remove s pr).agents (cacheKey s pr) = none ∧
    (dictLookup p.agents (cacheKey s pr) = none → p.remove s pr = p) ∧
    ((p.remove s pr).get f now s pr).1
      = (f s pr).map (fun a => (a, true)) := by
  have h1 : (p.remove s pr).agents = dictRemove p.agents (cacheKey s pr) := by
    cases hl : dictLookup p.agents (cacheKey s pr) with
    | some v => simp [AgentPool.remove, hl]
    | none => simp [AgentPool.remove, hl, dictRemove_eq_of_none hl]
  have h2 : dictLookup (p.remove s pr).agents (cacheKey s pr) = none := by
    rw [h1]
    exact dictLookup_dictRemove_self_nodup hW
  refine ⟨h1, h2, ?_, ?_⟩
  · intro hl
    simp [AgentPool.remove, hl]
  · cases hf : f s pr with
    | ok a => exact get_miss_ok_fst now h2 hf
    | error e =>
      show ((p.remove s pr).get f now s pr).1 = Except.error e
      rw [get_miss_err now h2 hf]

/-- C6 witness: removing the cached `s1` entry from `fullPool` and calling
`get("s1")` again invokes the factory, yielding the fresh handle 7. -/
theorem C6_remove_witness :
    ((fullPool.remove "s1" "nova-lite").get okFactory 9 "s1" "nova-lite").1
      = (okFactory "s1" "nova-lite").map (fun a => (a, true)) :=
  (C6_remove_unconditional fullPool "s1" "nova-lite" okFactory 9
    (by decide)).2.2.2

/-- C7: for every pool state — with or without a scheduled cleanup task,
i.e. whether or not `start()` ever ran — `stop()` returns successfully
(the cancellation signal raised by awaiting the cancelled sweep is caught,
never surfaced) and leaves the entry dict empty, everything else intact. -/
theorem C7_stop_clears (p : AgentPool) :
    p.stop = Except.ok { p with agents := [] } :=
  stop_eq p

/-- C8: `get(S1, "anthropic")` then `get(S1, "nova-lite")` on a fresh pool
yield two distinct entries (the provider is part of the composite key), the
second `get` invokes the factory, `active_count` is 2, and the
`session_ids` projection lists `S1` twice — no deduplication. -/
theorem C8_provider_in_key :
    ((((AgentPool.init 10 100).get providerFactory 0 "S1" "anthropic").2).get
        providerFactory 1 "S1" "nova-lite").1 = Except.ok (2, true) ∧
    dictLookup c8Pool.agents "S1:anthropic" = some (1, 0) ∧
    dictLookup c8Pool.agents "S1:nova-lite" = some (2, 1) ∧
    c8Pool.activeSessions = 2 ∧
    c8Pool.sessionIds = ["S1", "S1"] :=
  ⟨rfl, by decide⟩

/-- C10: composite keys are built by bare string concatenation with `":"`,
so the distinct part-pairs `("a:b", "c")` and `("a", "b:c")` share the slot
`"a:b:c"`: after `get("a:b", "c")` creates handle 7, `get("a", "b:c")`
returns that same handle without invoking its (different) factory, the pool
still holds one entry, and `session_ids` reports only the text before the
first colon of the stored key. -/
theorem C10_separator_collision :
    cacheKey "a:b" "c" = cacheKey "a" "b:c" ∧
    (c10Pool.get otherFactory 1 "a" "b:c").1 = Except.ok (7, false) ∧
    ((c10Pool.get otherFactory 1 "a" "b:c").2).activeSessions = 1 ∧
    c10Pool.sessionIds = ["a"] :=
  ⟨rfl, rfl, by decide⟩
